import Mathlib

/-!
Verification of the diff-position translation and comment-synthesis engine
of `review.py` (clang-tidy-review).

The Python code is shallowly embedded: the parsed unidiff model
(`PatchedFile`/`Hunk`/`Line` from the `unidiff` package, as consumed by the
code) becomes Lean structures, Python dicts become association lists whose
lookup returns the most recently written binding, and code that can raise os
exceptions returns `Except`/`Option`.  All functions are executable.
-/

/-! ## Parsed diff data model

`unidiff` presents a diff as a list of patched files, each a list of hunks,
each a list of lines.  A line knows whether it was added, removed or is
context, its line number in the target (post-change) file, and its offset
within the whole per-file diff text.  `target_line_no` is `none` for removed
lines (the `unidiff` library leaves it unpopulated there). -/

inductive LineKind where
  | context
  | added
  | removed
deriving DecidableEq, Repr

structure DiffLine where
  kind : LineKind
  target_line_no : Option Int
  diff_line_no : Int
deriving DecidableEq, Repr

/-- `line.is_removed` in `unidiff`. -/
def DiffLine.is_removed (l : DiffLine) : Bool :=
  match l.kind with
  | LineKind.removed => true
  | _ => false

/-- `line.is_added` in `unidiff`. -/
def DiffLine.is_added (l : DiffLine) : Bool :=
  match l.kind with
  | LineKind.added => true
  | _ => false

structure Hunk where
  lines : List DiffLine
deriving DecidableEq, Repr

structure PatchedFile where
  target_file : String
  hunks : List Hunk
deriving DecidableEq, Repr

/-- `file.target_file[2:]`: the target path with its 2-character diff marker
(`"b/"`) stripped. -/
def fileKey (f : PatchedFile) : String :=
  String.mk (f.target_file.data.drop 2)

/-! ## Python dicts as association lists

A dict write conses the new binding at the front; lookup returns the first
binding for the key, so the most recent write wins, exactly as for a Python
dict.  A failed lookup is `none` (Python raises `KeyError`). -/

def alookup {α β : Type} [DecidableEq α] : List (α × β) → α → Option β
  | [], _ => none
  | (k, v) :: m, k' => if k = k' then some v else alookup m k'

/-- Two-level dict lookup, `lookup[path][key]`. -/
def lookup2 {α β γ : Type} [DecidableEq α] [DecidableEq β]
    (m : List (α × List (β × γ))) (p : α) (k : β) : Option γ :=
  (alookup m p).bind (fun tbl => alookup tbl k)

/-! ## `make_file_line_lookup` (review.py lines 24-39) -/

def DIFF_HEADER_LINE_LENGTH : Int := 5

/-- The inner dict `lookup[filename]`: iterating the file's hunks and lines in
order, every non-removed line contributes the binding
`target_line_no ↦ diff_line_no - DIFF_HEADER_LINE_LENGTH`. -/
def fileTable (f : PatchedFile) : List (Option Int × Int) :=
  (f.hunks.flatMap Hunk.lines).foldl
    (fun tbl l =>
      if l.is_removed then tbl
      else (l.target_line_no, l.diff_line_no - DIFF_HEADER_LINE_LENGTH) :: tbl)
    []

/-- `make_file_line_lookup(diff)`. -/
def make_file_line_lookup (diff : List PatchedFile) : List (String × List (Option Int × Int)) :=
  diff.foldl (fun lk f => (fileKey f, fileTable f) :: lk) []

/-! ### Association-list lemmas -/

theorem alookup_append {α β : Type} [DecidableEq α] (xs ys : List (α × β)) (k : α) :
    alookup (xs ++ ys) k =
      match alookup xs k with
      | some v => some v
      | none => alookup ys k := by
  induction xs with
  | nil => simp [alookup]
  | cons p xs ih =>
    obtain ⟨k', v'⟩ := p
    by_cases h : k' = k <;> simp [alookup, h, ih]

theorem alookup_of_mem_of_nodup {α β : Type} [DecidableEq α]
    {ps : List (α × β)} {k : α} {v : β}
    (hnd : (ps.map Prod.fst).Nodup) (hmem : (k, v) ∈ ps) :
    alookup ps k = some v := by
  induction ps with
  | nil => cases hmem
  | cons p ps ih =>
    obtain ⟨k', v'⟩ := p
    simp only [List.map_cons, List.nodup_cons] at hnd
    rcases List.mem_cons.mp hmem with h | h
    · injection h with h1 h2
      subst h1; subst h2
      simp [alookup]
    · have hk : k' ≠ k := by
        intro he
        exact hnd.1 (he ▸ (List.mem_map.mpr ⟨(k, v), h, rfl⟩))
      simp [alookup, hk, ih hnd.2 h]

theorem alookup_eq_none_of_not_mem {α β : Type} [DecidableEq α]
    {ps : List (α × β)} {k : α} (h : k ∉ ps.map Prod.fst) :
    alookup ps k = none := by
  induction ps with
  | nil => rfl
  | cons p ps ih =>
    obtain ⟨k', v'⟩ := p
    simp only [List.map_cons, List.mem_cons] at h
    push_neg at h
    simp [alookup, Ne.symm h.1, ih h.2]

/-- A fold that pushes one binding per element is the reversed map of the
binding function, in front of the initial accumulator. -/
theorem foldl_push_eq {α κ : Type} (g : α → κ) :
    ∀ (xs : List α) (acc : List κ),
      xs.foldl (fun m a => g a :: m) acc = (xs.map g).reverse ++ acc := by
  intro xs
  induction xs with
  | nil => intro acc; simp
  | cons x xs ih =>
    intro acc
    simp [List.foldl_cons, ih, List.append_assoc]

/-- A fold that conditionally pushes one binding per element is the reversed
map over the filtered list. -/
theorem foldl_push_filter_eq {α κ : Type} (p : α → Bool) (g : α → κ) :
    ∀ (xs : List α) (acc : List κ),
      xs.foldl (fun m a => if p a then m else g a :: m) acc
        = ((xs.filter (fun a => !p a)).map g).reverse ++ acc := by
  intro xs
  induction xs with
  | nil => intro acc; simp
  | cons x xs ih =>
    intro acc
    by_cases h : p x <;> simp [List.foldl_cons, h, ih, List.append_assoc]

/-! ### Characterizing `make_file_line_lookup` -/

/-- The binding a non-removed diff line contributes. -/
def lineEntry (l : DiffLine) : Option Int × Int :=
  (l.target_line_no, l.diff_line_no - DIFF_HEADER_LINE_LENGTH)

theorem fileTable_eq (f : PatchedFile) :
    fileTable f
      = (((f.hunks.flatMap Hunk.lines).filter (fun l => !l.is_removed)).map lineEntry).reverse := by
  have h := foldl_push_filter_eq DiffLine.is_removed lineEntry (f.hunks.flatMap Hunk.lines) []
  simpa [fileTable, lineEntry] using h

theorem make_file_line_lookup_eq (diff : List PatchedFile) :
    make_file_line_lookup diff
      = (diff.map (fun f => (fileKey f, fileTable f))).reverse := by
  have h := foldl_push_eq (fun f => (fileKey f, fileTable f)) diff []
  simpa [make_file_line_lookup] using h

theorem alookup_make_file_line_lookup {diff : List PatchedFile} {f : PatchedFile}
    (hnd : (diff.map fileKey).Nodup) (hmem : f ∈ diff) :
    alookup (make_file_line_lookup diff) (fileKey f) = some (fileTable f) := by
  rw [make_file_line_lookup_eq]
  apply alookup_of_mem_of_nodup
  · have hcomp : (Prod.fst ∘ fun f => (fileKey f, fileTable f)) = fileKey := by
      funext x; rfl
    rw [← List.map_reverse, List.map_map, hcomp, List.map_reverse]
    exact List.nodup_reverse.mpr hnd
  · exact List.mem_reverse.mpr (List.mem_map.mpr ⟨f, hmem, rfl⟩)

theorem alookup_fileTable_of_kept {f : PatchedFile} {l : DiffLine}
    (hkeys : (((f.hunks.flatMap Hunk.lines).filter (fun l => !l.is_removed)).map
        DiffLine.target_line_no).Nodup)
    (hl : l ∈ f.hunks.flatMap Hunk.lines) (hnr : l.is_removed = false) :
    alookup (fileTable f) l.target_line_no = some (l.diff_line_no - DIFF_HEADER_LINE_LENGTH) := by
  rw [fileTable_eq]
  apply alookup_of_mem_of_nodup
  · have hcomp : (Prod.fst ∘ lineEntry) = DiffLine.target_line_no := by
      funext x; rfl
    rw [← List.map_reverse, List.map_map, hcomp, List.map_reverse]
    exact List.nodup_reverse.mpr hkeys
  · refine List.mem_reverse.mpr (List.mem_map.mpr ⟨l, ?_, rfl⟩)
    exact List.mem_filter.mpr ⟨hl, by simp [hnr]⟩

theorem alookup_fileTable_none {f : PatchedFile}
    (hpop : ∀ l ∈ f.hunks.flatMap Hunk.lines, l.is_removed = false → l.target_line_no ≠ none) :
    alookup (fileTable f) none = none := by
  rw [fileTable_eq]
  apply alookup_eq_none_of_not_mem
  intro hin
  rw [← List.map_reverse, List.map_map, List.mem_map] at hin
  obtain ⟨l, hl, hkey⟩ := hin
  have hl' := List.mem_reverse.mp hl
  have hmem := (List.mem_filter.mp hl').1
  have hkept := (List.mem_filter.mp hl').2
  have hnr : l.is_removed = false := by
    cases h : l.is_removed <;> simp [h] at hkept ⊢
  exact hpop l hmem hnr hkey

/-- C1: for every parsed diff (with the data-model invariants: file paths
unique within the diff, `target_line_no` populated exactly for non-removed
lines and unique among a file's non-removed lines), the lookup table maps
every context/added line to `diff_line_no - DIFF_HEADER_LINE_LENGTH` where
the constant is 5, and has no entry for any removed line. -/
theorem make_file_line_lookup_complete (diff : List PatchedFile)
    (hnames : (diff.map fileKey).Nodup)
    (hpop : ∀ f ∈ diff, ∀ h ∈ f.hunks, ∀ l ∈ h.lines,
      (l.kind = LineKind.removed ↔ l.target_line_no = none))
    (hkeys : ∀ f ∈ diff,
      (((f.hunks.flatMap Hunk.lines).filter (fun l => !l.is_removed)).map
        DiffLine.target_line_no).Nodup) :
    DIFF_HEADER_LINE_LENGTH = 5 ∧
    ∀ f ∈ diff, ∀ h ∈ f.hunks, ∀ l ∈ h.lines,
      (l.kind ≠ LineKind.removed →
        lookup2 (make_file_line_lookup diff) (fileKey f) l.target_line_no
          = some (l.diff_line_no - DIFF_HEADER_LINE_LENGTH)) ∧
      (l.kind = LineKind.removed →
        lookup2 (make_file_line_lookup diff) (fileKey f) l.target_line_no = none) := by
  refine ⟨rfl, ?_⟩
  intro f hf h hh l hl
  have hflat : l ∈ f.hunks.flatMap Hunk.lines :=
    List.mem_flatMap.mpr ⟨h, hh, hl⟩
  have houter := alookup_make_file_line_lookup hnames hf
  constructor
  · intro hnr
    have hnr' : l.is_removed = false := by
      cases hk : l.kind <;> simp [DiffLine.is_removed, hk] at hnr ⊢
    rw [lookup2, houter, Option.some_bind]
    exact alookup_fileTable_of_kept (hkeys f hf) hflat hnr'
  · intro hr
    have hkeynone : l.target_line_no = none := (hpop f hf h hh l hl).mp hr
    rw [lookup2, houter, Option.some_bind, hkeynone]
    apply alookup_fileTable_none
    intro l' hl' hnr'
    obtain ⟨h', hh', hll'⟩ := List.mem_flatMap.mp hl'
    intro hnone
    have : l'.kind = LineKind.removed := (hpop f hf h' hh' l' hll').mpr hnone
    simp [DiffLine.is_removed, this] at hnr'

/-- Witness for C1 on a concrete two-file diff containing context, added and
removed lines. -/
theorem make_file_line_lookup_complete_witness :
    DIFF_HEADER_LINE_LENGTH = 5 ∧
    ∀ f ∈ [PatchedFile.mk "b/src/a.cpp"
             [Hunk.mk [DiffLine.mk LineKind.context (some 10) 6,
                       DiffLine.mk LineKind.added (some 11) 7,
                       DiffLine.mk LineKind.removed none 8],
              Hunk.mk [DiffLine.mk LineKind.added (some 20) 12]],
           PatchedFile.mk "b/inc/b.hpp"
             [Hunk.mk [DiffLine.mk LineKind.removed none 6,
                       DiffLine.mk LineKind.added (some 3) 7]]],
      ∀ h ∈ f.hunks, ∀ l ∈ h.lines,
        (l.kind ≠ LineKind.removed →
          lookup2 (make_file_line_lookup
              [PatchedFile.mk "b/src/a.cpp"
                 [Hunk.mk [DiffLine.mk LineKind.context (some 10) 6,
                           DiffLine.mk LineKind.added (some 11) 7,
                           DiffLine.mk LineKind.removed none 8],
                  Hunk.mk [DiffLine.mk LineKind.added (some 20) 12]],
               PatchedFile.mk "b/inc/b.hpp"
                 [Hunk.mk [DiffLine.mk LineKind.removed none 6,
                           DiffLine.mk LineKind.added (some 3) 7]]])
            (fileKey f) l.target_line_no
            = some (l.diff_line_no - DIFF_HEADER_LINE_LENGTH)) ∧
        (l.kind = LineKind.removed →
          lookup2 (make_file_line_lookup
              [PatchedFile.mk "b/src/a.cpp"
                 [Hunk.mk [DiffLine.mk LineKind.context (some 10) 6,
                           DiffLine.mk LineKind.added (some 11) 7,
                           DiffLine.mk LineKind.removed none 8],
                  Hunk.mk [DiffLine.mk LineKind.added (some 20) 12]],
               PatchedFile.mk "b/inc/b.hpp"
                 [Hunk.mk [DiffLine.mk LineKind.removed none 6,
                           DiffLine.mk LineKind.added (some 3) 7]]])
            (fileKey f) l.target_line_no = none) :=
  make_file_line_lookup_complete _ (by decide) (by decide) (by decide)

/-! ## `get_line_ranges` (review.py lines 107-131)

The source collects, per file, the `target_line_no` of every added line in
traversal order, groups the enumerated sequence with
`itertools.groupby(enumerate(added_lines), lambda ix: ix[0] - ix[1])` and
emits `[group_first, group_last]` per group, accumulated into a dict with
`setdefault(filename, []).append(...)`.  The final JSON stringification is an
interface concern (spec section 4.2) and is not modelled.  An added line with
an unpopulated `target_line_no` would make the Python subtraction raise, so
the model returns `none` for the whole call in that case. -/

/-- The `added_lines` list of one file: `target_line_no` of every added line,
in hunk/line traversal order. -/
def addedLines (f : PatchedFile) : List (Option Int) :=
  f.hunks.flatMap (fun h => (h.lines.filter DiffLine.is_added).map DiffLine.target_line_no)

/-- `itertools.groupby`: split a list into maximal runs of consecutive
elements sharing a key. -/
def groupByKey {α : Type} (f : α → Int) : List α → List (List α)
  | [] => []
  | a :: as =>
    match groupByKey f as with
    | [] => [[a]]
    | [] :: gs => [a] :: [] :: gs
    | (b :: g) :: gs =>
      if f a = f b then (a :: b :: g) :: gs else [a] :: (b :: g) :: gs

/-- The key `lambda ix: ix[0] - ix[1]` over `enumerate(added_lines)`. -/
def enumKey (p : Nat × Int) : Int :=
  (p.1 : Int) - p.2

/-- The grouping step of `get_line_ranges` on one file's added-line numbers:
group `enumerate(added_lines)` by `index - value` and record
`[first, last]` of each group's line numbers. -/
def rangesOf (xs : List Int) : List (Int × Int) :=
  (groupByKey enumKey xs.enum).map
    (fun g => (((g.head?).map Prod.snd).getD 0, ((g.getLast?).map Prod.snd).getD 0))

/-- `lines_by_file.setdefault(name, []).append(...)` for a whole batch of
ranges; a batch is only appended when nonempty, since the source touches the
dict once per group. -/
def setdefaultExtend (m : List (String × List (Int × Int))) (k : String)
    (rs : List (Int × Int)) : List (String × List (Int × Int)) :=
  match rs with
  | [] => m
  | _ :: _ =>
    match m with
    | [] => [(k, rs)]
    | (k', v) :: m' =>
      if k' = k then (k', v ++ rs) :: m'
      else (k', v) :: setdefaultExtend m' k rs

/-- All-or-nothing sequencing of the optional line numbers: Python raises as
soon as the groupby key function hits an unpopulated `target_line_no`. -/
def seqSome : List (Option Int) → Option (List Int)
  | [] => some []
  | none :: _ => none
  | some x :: os =>
    match seqSome os with
    | none => none
    | some xs => some (x :: xs)

/-- The `lines_by_file` accumulation loop of `get_line_ranges`. -/
def linesByFile : List PatchedFile → List (String × List (Int × Int)) →
    Option (List (String × List (Int × Int)))
  | [], acc => some acc
  | f :: rest, acc =>
    match seqSome (addedLines f) with
    | none => none
    | some xs => linesByFile rest (setdefaultExtend acc (fileKey f) (rangesOf xs))

/-- `get_line_ranges(diff)`, up to the final JSON string encoding. -/
def get_line_ranges (diff : List PatchedFile) : Option (List (String × List (Int × Int))) :=
  linesByFile diff []

/-! ### Runs of consecutive integers

`groupByKey (fun p => p.1 - p.2)` over an enumerated list splits exactly at
the places where the value does not increase by one; `splitRuns` performs
that split directly on the values. -/

/-- Split a list of integers into maximal runs of consecutive integers,
each run given as its first element plus the remaining elements.  This is
what grouping the enumerated list by `index - value` computes, with the
run heads made explicit. -/
def splitRuns : List Int → List (Int × List Int)
  | [] => []
  | x :: xs =>
    match splitRuns xs with
    | [] => [(x, [])]
    | (y, g) :: gs =>
      if y = x + 1 then (x, y :: g) :: gs else (x, []) :: (y, g) :: gs

/-- A run rendered back as a plain list. -/
def runList (pg : Int × List Int) : List Int :=
  pg.1 :: pg.2

theorem groupByKey_cons {α : Type} (f : α → Int) (a : α) (as : List α) :
    groupByKey f (a :: as)
      = match groupByKey f as with
        | [] => [[a]]
        | [] :: gs => [a] :: [] :: gs
        | (b :: g) :: gs =>
          if f a = f b then (a :: b :: g) :: gs else [a] :: (b :: g) :: gs := by
  simp only [groupByKey]

theorem splitRuns_cons (x : Int) (xs : List Int) :
    splitRuns (x :: xs)
      = match splitRuns xs with
        | [] => [(x, [])]
        | (y, g) :: gs =>
          if y = x + 1 then (x, y :: g) :: gs else (x, []) :: (y, g) :: gs := by
  simp only [splitRuns]

theorem groupByKey_cons_shape {α : Type} (f : α → Int) (a : α) (as : List α) :
    ∃ t gs, groupByKey f (a :: as) = (a :: t) :: gs := by
  simp only [groupByKey]
  cases hg : groupByKey f as with
  | nil => exact ⟨[], [], rfl⟩
  | cons g gs =>
    cases g with
    | nil => exact ⟨[], [] :: gs, rfl⟩
    | cons b g =>
      by_cases h : f a = f b
      · exact ⟨b :: g, gs, by simp [h]⟩
      · exact ⟨[], (b :: g) :: gs, by simp [h]⟩

theorem splitRuns_cons_shape (x : Int) (xs : List Int) :
    ∃ t gs, splitRuns (x :: xs) = (x, t) :: gs := by
  simp only [splitRuns]
  cases hg : splitRuns xs with
  | nil => exact ⟨[], [], rfl⟩
  | cons pg gs =>
    obtain ⟨y, g⟩ := pg
    by_cases h : y = x + 1
    · exact ⟨y :: g, gs, by simp [h]⟩
    · exact ⟨[], (y, g) :: gs, by simp [h]⟩

/-- Grouping the enumeration (from any start index) by `index - value` yields
exactly the runs of consecutive values. -/
theorem groupByKey_enumFrom_eq_splitRuns :
    ∀ (xs : List Int) (n : Nat),
      (groupByKey enumKey (List.enumFrom n xs)).map (List.map Prod.snd)
        = (splitRuns xs).map runList := by
  intro xs
  induction xs with
  | nil => intro n; simp [groupByKey, splitRuns]
  | cons x xs ih =>
    intro n
    cases xs with
    | nil => simp [groupByKey, splitRuns, runList]
    | cons y rest =>
      obtain ⟨t, gs, hshape⟩ :=
        groupByKey_cons_shape enumKey (n + 1, y) (List.enumFrom (n + 1 + 1) rest)
      obtain ⟨t', gs', hshape'⟩ := splitRuns_cons_shape y rest
      have ihy := ih (n + 1)
      simp only [List.enumFrom] at ihy
      rw [hshape, hshape'] at ihy
      simp only [List.map_cons, List.map, runList] at ihy
      have hhead : List.map Prod.snd t = t' ∧ (gs.map (List.map Prod.snd)) = gs'.map runList := by
        have h1 := congrArg List.head? ihy
        have h2 := congrArg List.tail ihy
        simp at h1 h2
        exact ⟨h1, h2⟩
      have hcond : (enumKey (n, x) = enumKey (n + 1, y)) ↔ (y = x + 1) := by
        simp only [enumKey]
        push_cast
        omega
      show (groupByKey enumKey
          (List.enumFrom n (x :: y :: rest))).map (List.map Prod.snd)
        = (splitRuns (x :: y :: rest)).map runList
      simp only [List.enumFrom]
      rw [groupByKey_cons, hshape, splitRuns_cons, hshape']
      by_cases hy : y = x + 1
      · have hk : enumKey (n, x) = enumKey (n + 1, y) := hcond.mpr hy
        simp only [if_pos hk, if_pos hy, List.map_cons, runList]
        simp [hhead.1, hhead.2]
      · have hk : ¬(enumKey (n, x) = enumKey (n + 1, y)) := fun h => hy (hcond.mp h)
        simp only [if_neg hk, if_neg hy, List.map_cons, runList]
        simp [hhead.1, hhead.2]

theorem splitRuns_eq_nil_iff {xs : List Int} : splitRuns xs = [] ↔ xs = [] := by
  cases xs with
  | nil => simp [splitRuns]
  | cons x xs =>
    obtain ⟨t, gs, h⟩ := splitRuns_cons_shape x xs
    simp [h]

/-- Flattening the runs gives back the original list. -/
theorem splitRuns_flatten : ∀ xs : List Int, ((splitRuns xs).map runList).flatten = xs := by
  intro xs
  induction xs with
  | nil => simp [splitRuns]
  | cons x xs ih =>
    rw [splitRuns_cons]
    cases hs : splitRuns xs with
    | nil =>
      have : xs = [] := splitRuns_eq_nil_iff.mp hs
      simp [this, runList]
    | cons pg gs =>
      obtain ⟨y, g⟩ := pg
      rw [hs] at ih
      by_cases hy : y = x + 1 <;>
        simp only [if_pos, if_neg, hy, List.map_cons, List.flatten_cons, runList] at ih ⊢ <;>
        simp_all [runList]

/-- Every run consists of consecutive integers. -/
theorem splitRuns_consecutive :
    ∀ (xs : List Int) (pg : Int × List Int), pg ∈ splitRuns xs →
      (runList pg).Chain' (fun a b => b = a + 1) := by
  intro xs
  induction xs with
  | nil => simp [splitRuns]
  | cons x xs ih =>
    intro pg hpg
    rw [splitRuns_cons] at hpg
    cases hs : splitRuns xs with
    | nil =>
      rw [hs] at hpg
      simp at hpg
      simp [hpg, runList]
    | cons qg gs =>
      obtain ⟨y, g⟩ := qg
      rw [hs] at hpg
      by_cases hy : y = x + 1
      · simp only [if_pos hy, List.mem_cons] at hpg
        rcases hpg with h | h
        · subst h
          have hyg := ih (y, g) (hs ▸ List.mem_cons_self _ _)
          simp only [runList] at hyg ⊢
          exact List.chain'_cons.mpr ⟨hy, hyg⟩
        · exact ih pg (hs ▸ List.mem_cons_of_mem _ h)
      · simp only [if_neg hy, List.mem_cons] at hpg
        rcases hpg with h | h
        · subst h
          simp [runList]
        · exact ih pg (hs ▸ List.mem_cons.mpr h)

/-- The last element of a run, `getLastD tail head`. -/
def runLast (pg : Int × List Int) : Int :=
  pg.2.getLastD pg.1

/-- On a strictly ascending list, consecutive runs are separated by a gap of
at least one missing integer. -/
theorem splitRuns_gaps :
    ∀ xs : List Int, xs.Chain' (· < ·) →
      (splitRuns xs).Chain' (fun pg qg => runLast pg + 1 < qg.1) := by
  intro xs
  induction xs with
  | nil => simp [splitRuns]
  | cons x xs ih =>
    intro hchain
    have hxs : xs.Chain' (· < ·) := (List.chain'_cons'.mp hchain).2
    have hlt : ∀ y ∈ xs.head?, x < y := (List.chain'_cons'.mp hchain).1
    rw [splitRuns_cons]
    cases hs : splitRuns xs with
    | nil => simp
    | cons qg gs =>
      obtain ⟨y, g⟩ := qg
      have hhead : xs.head? = some y := by
        cases hxs' : xs with
        | nil => rw [hxs'] at hs; simp [splitRuns] at hs
        | cons z rest =>
          obtain ⟨t, gs', hsh⟩ := splitRuns_cons_shape z rest
          rw [hxs'] at hs
          rw [hsh] at hs
          injection hs with h1 h2
          injection h1 with h1a h1b
          simp [h1a]
      have hxy : x < y := hlt y (by rw [hhead]; rfl)
      have ihs := ih hxs
      rw [hs] at ihs
      by_cases hy : y = x + 1
      · simp only [if_pos hy]
        have hcc := List.chain'_cons'.mp ihs
        refine List.chain'_cons'.mpr ⟨?_, hcc.2⟩
        intro rg hrg
        have hgap := hcc.1 rg hrg
        simp only [runLast] at hgap ⊢
        rw [List.getLastD_cons]
        exact hgap
      · simp only [if_neg hy]
        refine List.chain'_cons.mpr ⟨?_, ihs⟩
        simp only [runLast, List.getLastD]
        omega

/-- Closed form of a consecutive run: last element and membership. -/
theorem run_closed_form :
    ∀ (g : List Int) (a : Int), (a :: g).Chain' (fun p q => q = p + 1) →
      g.getLastD a = a + g.length ∧ ∀ n : Int, n ∈ a :: g ↔ a ≤ n ∧ n ≤ a + g.length := by
  intro g
  induction g with
  | nil =>
    intro a _
    constructor
    · simp [List.getLastD]
    · intro n
      simp only [List.mem_singleton, List.length_nil, Nat.cast_zero, add_zero]
      omega
  | cons b g ih =>
    intro a hchain
    have hab : b = a + 1 := (List.chain'_cons.mp hchain).1
    have hbg := (List.chain'_cons.mp hchain).2
    obtain ⟨hlast, hmem⟩ := ih b hbg
    constructor
    · rw [List.getLastD_cons, hlast, hab, List.length_cons]
      push_cast
      ring
    · intro n
      rw [List.mem_cons, hmem n, hab, List.length_cons]
      push_cast
      omega

theorem getLastD_of_cons (a d : Int) (g : List Int) :
    ((a :: g).getLast?).getD d = g.getLastD a := by
  induction g generalizing a with
  | nil => rfl
  | cons b g ih =>
    rw [List.getLast?_cons_cons, List.getLastD_cons]
    exact ih b

theorem rangesOf_eq (xs : List Int) :
    rangesOf xs = (splitRuns xs).map (fun pg => (pg.1, runLast pg)) := by
  have hb := groupByKey_enumFrom_eq_splitRuns xs 0
  have hmm : rangesOf xs
      = ((groupByKey enumKey (List.enumFrom 0 xs)).map (List.map Prod.snd)).map
          (fun L => (L.head?.getD 0, L.getLast?.getD 0)) := by
    have henum : xs.enum = List.enumFrom 0 xs := rfl
    simp only [rangesOf, henum, List.map_map]
    apply List.map_congr_left
    intro g hg
    simp [Function.comp, List.head?_map, List.getLast?_map]
  rw [hmm, hb, List.map_map]
  apply List.map_congr_left
  intro pg hpg
  simp only [Function.comp, runList, List.head?_cons, Option.getD_some]
  rw [getLastD_of_cons]
  rfl

/-- The ranges emitted for a strictly ascending list of line numbers cover
exactly its members, are separated by gaps (hence disjoint, ascending, and
unmergeable), are well-formed, and are empty exactly for the empty list. -/
theorem rangesOf_spec (xs : List Int) (hsorted : xs.Chain' (· < ·)) :
    (∀ n : Int, (∃ r ∈ rangesOf xs, r.1 ≤ n ∧ n ≤ r.2) ↔ n ∈ xs) ∧
    (rangesOf xs).Chain' (fun r s => r.2 + 1 < s.1) ∧
    (∀ r ∈ rangesOf xs, r.1 ≤ r.2) ∧
    (rangesOf xs = [] ↔ xs = []) := by
  have hrun : ∀ pg ∈ splitRuns xs,
      runLast pg = pg.1 + pg.2.length ∧
      ∀ n : Int, n ∈ runList pg ↔ pg.1 ≤ n ∧ n ≤ pg.1 + pg.2.length := by
    intro pg hpg
    have hc := splitRuns_consecutive xs pg hpg
    have := run_closed_form pg.2 pg.1 (by simpa [runList] using hc)
    exact ⟨this.1, by simpa [runList] using this.2⟩
  refine ⟨?_, ?_, ?_, ?_⟩
  · intro n
    rw [rangesOf_eq]
    constructor
    · rintro ⟨r, hr, h1, h2⟩
      obtain ⟨pg, hpg, hrpg⟩ := List.mem_map.mp hr
      subst hrpg
      have hm : n ∈ runList pg := by
        rw [(hrun pg hpg).2 n]
        have := (hrun pg hpg).1
        simp only at h1 h2
        omega
      rw [← splitRuns_flatten xs]
      exact List.mem_flatten.mpr ⟨runList pg, List.mem_map.mpr ⟨pg, hpg, rfl⟩, hm⟩
    · intro hn
      rw [← splitRuns_flatten xs] at hn
      obtain ⟨L, hL, hnL⟩ := List.mem_flatten.mp hn
      obtain ⟨pg, hpg, hLpg⟩ := List.mem_map.mp hL
      subst hLpg
      refine ⟨(pg.1, runLast pg), List.mem_map.mpr ⟨pg, hpg, rfl⟩, ?_⟩
      have := ((hrun pg hpg).2 n).mp hnL
      have hlast := (hrun pg hpg).1
      simp only
      omega
  · rw [rangesOf_eq]
    rw [List.chain'_map]
    have hg := splitRuns_gaps xs hsorted
    exact hg
  · intro r hr
    rw [rangesOf_eq] at hr
    obtain ⟨pg, hpg, hrpg⟩ := List.mem_map.mp hr
    subst hrpg
    have := (hrun pg hpg).1
    simp only
    omega
  · rw [rangesOf_eq]
    rw [List.map_eq_nil_iff]
    exact splitRuns_eq_nil_iff

/-! ### The per-file dict accumulated by `get_line_ranges` -/

/-- A file's added line numbers, when they are all populated. -/
def addedNums (f : PatchedFile) : List Int :=
  (addedLines f).filterMap id

theorem seqSome_eq_of_all_isSome {os : List (Option Int)}
    (h : ∀ o ∈ os, o.isSome) : seqSome os = some (os.filterMap id) := by
  induction os with
  | nil => rfl
  | cons o os ih =>
    have ho := h o (List.mem_cons_self _ _)
    obtain ⟨x, hx⟩ := Option.isSome_iff_exists.mp ho
    subst hx
    have hrec := ih (fun o' ho' => h o' (List.mem_cons_of_mem _ ho'))
    simp [seqSome, hrec, List.filterMap_cons]

/-- The accumulation loop with the option layer stripped. -/
def plainLinesByFile : List PatchedFile → List (String × List (Int × Int)) →
    List (String × List (Int × Int))
  | [], acc => acc
  | f :: rest, acc =>
    plainLinesByFile rest (setdefaultExtend acc (fileKey f) (rangesOf (addedNums f)))

theorem linesByFile_eq_plain :
    ∀ (fs : List PatchedFile) (acc : List (String × List (Int × Int))),
      (∀ f ∈ fs, ∀ o ∈ addedLines f, o.isSome) →
      linesByFile fs acc = some (plainLinesByFile fs acc) := by
  intro fs
  induction fs with
  | nil => intro acc _; rfl
  | cons f rest ih =>
    intro acc hall
    rw [linesByFile, plainLinesByFile]
    rw [seqSome_eq_of_all_isSome (hall f (List.mem_cons_self _ _))]
    exact ih _ (fun g hg => hall g (List.mem_cons_of_mem _ hg))

theorem alookup_setdefaultExtend_self (m : List (String × List (Int × Int)))
    (k : String) (rs : List (Int × Int)) (hrs : rs ≠ []) :
    alookup (setdefaultExtend m k rs) k = some ((alookup m k).getD [] ++ rs) := by
  induction m with
  | nil =>
    cases rs with
    | nil => exact absurd rfl hrs
    | cons r rs => simp [setdefaultExtend, alookup]
  | cons p m ih =>
    obtain ⟨k', v⟩ := p
    cases rs with
    | nil => exact absurd rfl hrs
    | cons r rs =>
      by_cases hk : k' = k
      · subst hk
        simp [setdefaultExtend, alookup]
      · simp only [setdefaultExtend, if_neg hk]
        rw [alookup, alookup, if_neg hk, if_neg hk]
        exact ih

theorem alookup_setdefaultExtend_other (m : List (String × List (Int × Int)))
    (k k' : String) (rs : List (Int × Int)) (hk : k' ≠ k) :
    alookup (setdefaultExtend m k rs) k' = alookup m k' := by
  induction m with
  | nil =>
    cases rs with
    | nil => rfl
    | cons r rs => simp [setdefaultExtend, alookup, Ne.symm hk]
  | cons p m ih =>
    obtain ⟨k'', v⟩ := p
    cases rs with
    | nil => rfl
    | cons r rs =>
      by_cases h2 : k'' = k
      · subst h2
        simp [setdefaultExtend, alookup, Ne.symm hk]
      · simp only [setdefaultExtend, if_neg h2]
        rw [alookup, alookup]
        by_cases h3 : k'' = k'
        · simp [h3]
        · simp only [if_neg h3]
          exact ih

theorem mem_keys_setdefaultExtend :
    ∀ (m : List (String × List (Int × Int))) (k k' : String) (rs : List (Int × Int)),
      k' ∈ (setdefaultExtend m k rs).map Prod.fst →
      k' ∈ m.map Prod.fst ∨ k' = k := by
  intro m
  induction m with
  | nil =>
    intro k k' rs h
    cases rs with
    | nil => exact Or.inl h
    | cons r rs' =>
      right
      simpa [setdefaultExtend] using h
  | cons p m ih =>
    obtain ⟨k'', v⟩ := p
    intro k k' rs h
    cases rs with
    | nil => exact Or.inl h
    | cons r rs' =>
      by_cases h2 : k'' = k
      · simp only [setdefaultExtend, if_pos h2, List.map_cons, List.mem_cons] at h
        simp only [List.map_cons, List.mem_cons]
        tauto
      · simp only [setdefaultExtend, if_neg h2, List.map_cons, List.mem_cons] at h
        simp only [List.map_cons, List.mem_cons]
        rcases h with h | h
        · exact Or.inl (Or.inl h)
        · rcases ih k k' (r :: rs') h with h3 | h3
          · exact Or.inl (Or.inr h3)
          · exact Or.inr h3

theorem alookup_plainLinesByFile_preserve :
    ∀ (fs : List PatchedFile) (acc : List (String × List (Int × Int))) (k : String),
      k ∉ fs.map fileKey →
      alookup (plainLinesByFile fs acc) k = alookup acc k := by
  intro fs
  induction fs with
  | nil => intro acc k _; rfl
  | cons f rest ih =>
    intro acc k hk
    simp only [List.map_cons, List.mem_cons] at hk
    push_neg at hk
    rw [plainLinesByFile, ih _ _ hk.2]
    exact alookup_setdefaultExtend_other _ _ _ _ hk.1

theorem alookup_plainLinesByFile :
    ∀ (fs : List PatchedFile) (acc : List (String × List (Int × Int))) (f : PatchedFile),
      f ∈ fs → (fs.map fileKey).Nodup → fileKey f ∉ acc.map Prod.fst →
      alookup (plainLinesByFile fs acc) (fileKey f)
        = if rangesOf (addedNums f) = [] then none else some (rangesOf (addedNums f)) := by
  intro fs
  induction fs with
  | nil => intro acc f hf; cases hf
  | cons g rest ih =>
    intro acc f hf hnd hacc
    simp only [List.map_cons, List.nodup_cons] at hnd
    rw [plainLinesByFile]
    rcases List.mem_cons.mp hf with hfg | hfr
    · subst hfg
      have hnotrest : fileKey f ∉ rest.map fileKey := hnd.1
      rw [alookup_plainLinesByFile_preserve rest _ _ hnotrest]
      cases hrs : rangesOf (addedNums f) with
      | nil =>
        simp only [setdefaultExtend, if_pos rfl]
        exact alookup_eq_none_of_not_mem hacc
      | cons r rs =>
        rw [alookup_setdefaultExtend_self _ _ _ (by simp [hrs])]
        rw [alookup_eq_none_of_not_mem hacc]
        simp [hrs]
    · have hne : fileKey f ≠ fileKey g := by
        intro he
        exact hnd.1 (he ▸ List.mem_map.mpr ⟨f, hfr, rfl⟩)
      have hacc' : fileKey f ∉ (setdefaultExtend acc (fileKey g) (rangesOf (addedNums g))).map Prod.fst := by
        intro hmem
        rcases mem_keys_setdefaultExtend _ _ _ _ hmem with h | h
        · exact hacc h
        · exact hne h
      exact ih _ f hfr hnd.2 hacc'

/-- C2: for every parsed diff (files uniquely named, added line numbers
populated, and each file's added lines strictly ascending, as in any valid
diff) and every file in it, `get_line_ranges` emits ranges whose union is
exactly the file's set of added line numbers; the ranges are in ascending
order, disjoint and non-adjacent (hence maximal), and a file with no added
lines contributes no entry.  The concrete added-line list
`[10,11,12,15,16,20]` produces `[[10,12],[15,16],[20,20]]`. -/
theorem get_line_ranges_spec (diff : List PatchedFile) (f : PatchedFile)
    (hf : f ∈ diff)
    (hnames : (diff.map fileKey).Nodup)
    (hsome : ∀ g ∈ diff, ∀ o ∈ addedLines g, o.isSome)
    (hsorted : (addedNums f).Chain' (· < ·)) :
    (∃ lbf, get_line_ranges diff = some lbf ∧
      (addedNums f = [] → alookup lbf (fileKey f) = none) ∧
      (addedNums f ≠ [] →
        alookup lbf (fileKey f) = some (rangesOf (addedNums f)) ∧
        (∀ n : Int, (∃ r ∈ rangesOf (addedNums f), r.1 ≤ n ∧ n ≤ r.2) ↔ n ∈ addedNums f) ∧
        (rangesOf (addedNums f)).Chain' (fun r s => r.2 + 1 < s.1) ∧
        (∀ r ∈ rangesOf (addedNums f), r.1 ≤ r.2))) ∧
    rangesOf [10, 11, 12, 15, 16, 20] = [(10, 12), (15, 16), (20, 20)] := by
  refine ⟨⟨plainLinesByFile diff [], linesByFile_eq_plain diff [] hsome, ?_, ?_⟩, by decide⟩
  · intro hempty
    have hrs : rangesOf (addedNums f) = [] := by
      rw [hempty]; rfl
    rw [alookup_plainLinesByFile diff [] f hf hnames (by simp), if_pos hrs]
  · intro hne
    obtain ⟨hmem, hchain, hwf, hnil⟩ := rangesOf_spec (addedNums f) hsorted
    have hrne : rangesOf (addedNums f) ≠ [] := fun h => hne (hnil.mp h)
    rw [alookup_plainLinesByFile diff [] f hf hnames (by simp), if_neg hrne]
    exact ⟨rfl, hmem, hchain, hwf⟩

/-- A concrete two-file diff for exercising `get_line_ranges`: one file whose
added lines are 10,11,12,15,16,20 and one file with no added lines. -/
def rangesDiffA : PatchedFile :=
  PatchedFile.mk "b/a.cpp"
    [Hunk.mk [DiffLine.mk LineKind.added (some 10) 6,
              DiffLine.mk LineKind.added (some 11) 7,
              DiffLine.mk LineKind.added (some 12) 8],
     Hunk.mk [DiffLine.mk LineKind.added (some 15) 12,
              DiffLine.mk LineKind.added (some 16) 13,
              DiffLine.mk LineKind.context (some 17) 14],
     Hunk.mk [DiffLine.mk LineKind.added (some 20) 17]]

def rangesDiffB : PatchedFile :=
  PatchedFile.mk "b/b.cpp"
    [Hunk.mk [DiffLine.mk LineKind.context (some 1) 6,
              DiffLine.mk LineKind.removed none 7]]

/-- Witness for C2 at a concrete diff. -/
theorem get_line_ranges_spec_witness :
    (∃ lbf, get_line_ranges [rangesDiffA, rangesDiffB] = some lbf ∧
      (addedNums rangesDiffA = [] → alookup lbf (fileKey rangesDiffA) = none) ∧
      (addedNums rangesDiffA ≠ [] →
        alookup lbf (fileKey rangesDiffA) = some (rangesOf (addedNums rangesDiffA)) ∧
        (∀ n : Int, (∃ r ∈ rangesOf (addedNums rangesDiffA), r.1 ≤ n ∧ n ≤ r.2)
          ↔ n ∈ addedNums rangesDiffA) ∧
        (rangesOf (addedNums rangesDiffA)).Chain' (fun r s => r.2 + 1 < s.1) ∧
        (∀ r ∈ rangesOf (addedNums rangesDiffA), r.1 ≤ r.2))) ∧
    rangesOf [10, 11, 12, 15, 16, 20] = [(10, 12), (15, 16), (20, 20)] :=
  get_line_ranges_spec [rangesDiffA, rangesDiffB] rangesDiffA
    (by decide) (by decide) (by decide)
    (by
      have h : addedNums rangesDiffA = [10, 11, 12, 15, 16, 20] := by decide
      rw [h]
      simp only [List.chain'_cons, List.chain'_singleton, and_true]
      norm_num)

/-! ## Python string primitives

`make_review` works on plain text.  The relevant Python `str` operations are
modelled on `List Char` (Lean strings are `List Char` underneath, and Python
indexing/slicing is character based). -/

/-- `pat in s` (substring containment). -/
def hasSubstr (pat : List Char) : List Char → Bool
  | [] => pat.isEmpty
  | c :: rest => pat.isPrefixOf (c :: rest) || hasSubstr pat rest

/-- `s.split(sep, maxsplit)` on a single-character separator: at most `fuel`
splits are performed, the remainder stays in the last piece. -/
def splitMaxAux (sep : Char) : Nat → List Char → List Char → List (List Char)
  | _, acc, [] => [acc.reverse]
  | fuel, acc, c :: rest =>
    if c = sep then
      match fuel with
      | 0 => splitMaxAux sep 0 (c :: acc) rest
      | fuel' + 1 => acc.reverse :: splitMaxAux sep fuel' [] rest
    else splitMaxAux sep fuel (c :: acc) rest

def splitMax (sep : Char) (fuel : Nat) (s : List Char) : List (List Char) :=
  splitMaxAux sep fuel [] s

/-- Python whitespace as stripped by `str.strip()`. -/
def isPyWs (c : Char) : Bool :=
  c = ' ' || c = '\t' || c = '\n' || c = '\r'

/-- `s.strip()`. -/
def trimChars (s : List Char) : List Char :=
  ((s.dropWhile isPyWs).reverse.dropWhile isPyWs).reverse

/-- `s.replace(old, new)` for a single-character pattern. -/
def replaceChar (a b : Char) (s : List Char) : List Char :=
  s.map (fun c => if c = a then b else c)

/-- One fuelled step list for `s.replace(old, new)` with a string pattern:
each step consumes at least one character, so `s.length` fuel suffices.
CPython treats an empty pattern specially (it inserts `new` between all
characters); the pattern here is a nonempty file path in every reachable
call, and the guard keeps the function total. -/
def replaceFuel (pat repl : List Char) : Nat → List Char → List Char
  | _, [] => []
  | 0, s => s
  | fuel + 1, c :: rest =>
    if !pat.isEmpty && pat.isPrefixOf (c :: rest) then
      repl ++ replaceFuel pat repl fuel ((c :: rest).drop pat.length)
    else
      c :: replaceFuel pat repl fuel rest

def pyReplace (s pat repl : String) : String :=
  String.mk (replaceFuel pat.data repl.data s.data.length s.data)

/-- `text.split(sep)` for a single-character separator (no maxsplit):
always returns at least one (possibly empty) piece. -/
def splitOnChar (sep : Char) : List Char → List (List Char)
  | [] => [[]]
  | c :: rest =>
    let r := splitOnChar sep rest
    if c = sep then [] :: r
    else
      match r with
      | [] => [[c]]
      | g :: gs => (c :: g) :: gs

/-- `sep.join(pieces)` for a single-character separator. -/
def joinWith (sep : Char) : List (List Char) → List Char
  | [] => []
  | [g] => g
  | g :: gs => g ++ sep :: joinWith sep gs

/-- Parse a run of decimal digits. -/
def digitsToNat : List Char → Option Nat
  | [] => none
  | cs => cs.foldl (fun acc c =>
      match acc with
      | none => none
      | some n => if c.isDigit then some (n * 10 + (c.toNat - 48)) else none)
      (some 0)

/-- `int(s)`: optional sign followed by digits (leading/trailing whitespace is
not needed by any reachable input). -/
def pyInt (s : List Char) : Option Int :=
  match s with
  | '-' :: rest => (digitsToNat rest).map (fun n => -(n : Int))
  | '+' :: rest => (digitsToNat rest).map (fun n => (n : Int))
  | _ => (digitsToNat s).map (fun n => (n : Int))

/-! ## `os.path.relpath` for absolute POSIX paths

`make_review` computes `os.path.relpath(full_path, root)` where both
arguments are absolute normalized POSIX paths (a diagnostic's absolute file
path and the process working directory). -/

/-- Path components: split on `/`, dropping empty components. -/
def splitPath (s : String) : List String :=
  ((splitOnChar '/' s.data).map String.mk).filter (fun c => c ≠ "")

def commonPrefixLen : List String → List String → Nat
  | a :: as, b :: bs => if a = b then commonPrefixLen as bs + 1 else 0
  | _, _ => 0

/-- `os.path.relpath(path, start)` for absolute normalized POSIX paths. -/
def pyRelpath (path start : String) : String :=
  let pl := splitPath path
  let sl := splitPath start
  let i := commonPrefixLen sl pl
  let rel := List.replicate (sl.length - i) ".." ++ pl.drop i
  if rel = [] then "." else String.mk (joinWith '/' (rel.map String.data))

/-! ## `textwrap.dedent`

Whitespace-only lines are blanked; the margin is the longest common prefix
of the leading space/tab runs of the remaining nonempty lines; the margin is
then removed from every line that starts with it. -/

def isIndentWs (c : Char) : Bool :=
  c = ' ' || c = '\t'

def blankWsOnly (l : List Char) : List Char :=
  if !l.isEmpty && l.all isIndentWs then [] else l

def leadingWs (l : List Char) : List Char :=
  l.takeWhile isIndentWs

def commonPrefixChars : List Char → List Char → List Char
  | a :: as, b :: bs => if a = b then a :: commonPrefixChars as bs else []
  | _, _ => []

def dedentChars (text : List Char) : List Char :=
  let lines := (splitOnChar '\n' text).map blankWsOnly
  let indents := (lines.filter (fun l => !l.isEmpty)).map leadingWs
  let margin :=
    match indents with
    | [] => []
    | m :: ms => ms.foldl commonPrefixChars m
  joinWith '\n' (lines.map (fun l => if margin.isPrefixOf l then l.drop margin.length else l))

/-! ## `make_review` (review.py lines 42-79)

The diagnostic stream is scanned line by line.  A line containing the token
"warning" starts a record; if it begins with the token it has no file path
and is skipped.  Otherwise the line is split on at most three colons into
`(full_path, source_line, column, message)` — fewer pieces make the Python
tuple unpacking raise, modelled as an error value.  The record's body is the
run of following lines up to the next line containing "warning", with the
absolute path replaced by the root-relative one.  The comment position is
`lookup[rel_path][int(source_line)]`; a missing key raises, modelled as a
distinguishable error value.  `root` is the process working directory that
the Python code reads with `os.getcwd()`, made an explicit argument here. -/

def warningMarker : List Char :=
  "warning".data

structure ReviewComment where
  path : String
  body : String
  position : Int
deriving DecidableEq, Repr

structure Review where
  body : String
  event : String
  comments : List ReviewComment
deriving DecidableEq, Repr

inductive ReviewError where
  | unpackError (line : String)
  | intError (s : String)
  | missingFile (path : String)
  | missingLine (path : String) (line : Int)
deriving DecidableEq, Repr

abbrev Lookup := List (String × List (Option Int × Int))

/-- The body collected for one record: every following line up to (but not
including) the next line containing "warning", each prefixed by a newline and
with the absolute path replaced by the relative one. -/
def bodyText (full_path rel_path : String) (rest : List String) : List Char :=
  (rest.takeWhile (fun l2 => !hasSubstr warningMarker l2.data)).foldl
    (fun b l2 => b ++ '\n' :: (pyReplace l2 full_path rel_path).data) []

/-- The comment body: stripped message with single quotes turned into
backticks, then the de-dented and stripped body in a fenced code block. -/
def commentBody (warn : List Char) (body : List Char) : String :=
  String.mk (replaceChar (Char.ofNat 39) (Char.ofNat 96) (trimChars warn))
    ++ "\n\n```cpp\n" ++ String.mk (trimChars (dedentChars body)) ++ "\n```\n"

def make_review_loop (root : String) (lookup : Lookup) :
    List String → Except ReviewError (List ReviewComment)
  | [] => Except.ok []
  | line :: rest =>
    if hasSubstr warningMarker line.data then
      if warningMarker.isPrefixOf line.data then
        make_review_loop root lookup rest
      else
        match splitMax ':' 3 line.data with
        | [fp, sl, _col, warn] =>
          let full_path := String.mk fp
          let rel_path := pyRelpath full_path root
          let body := bodyText full_path rel_path rest
          let comment_body := commentBody warn body
          match alookup lookup rel_path with
          | none => Except.error (ReviewError.missingFile rel_path)
          | some tbl =>
            match pyInt sl with
            | none => Except.error (ReviewError.intError (String.mk sl))
            | some n =>
              match alookup tbl (some n) with
              | none => Except.error (ReviewError.missingLine rel_path n)
              | some pos =>
                match make_review_loop root lookup rest with
                | Except.error e => Except.error e
                | Except.ok cs =>
                  Except.ok (ReviewComment.mk rel_path comment_body pos :: cs)
        | _ => Except.error (ReviewError.unpackError line)
    else make_review_loop root lookup rest

/-- `make_review(contents, lookup)`, with the working directory `root` passed
explicitly. -/
def make_review (contents : List String) (lookup : Lookup) (root : String) :
    Except ReviewError Review :=
  (make_review_loop root lookup contents).map
    (fun cs => Review.mk "clang-tidy made some suggestions" "COMMENT" cs)

/-! ## `post_review` (review.py lines 170-196): deduplication and outcome -/

/-- A review comment already posted on the pull request. -/
structure RemoteComment where
  path : String
  position : Int
  body : String
deriving DecidableEq, Repr

/-- The filter predicate of `post_review`: exact (path, position, body)
match against one existing comment. -/
def matchesRemote (rc : ReviewComment) (c : RemoteComment) : Bool :=
  rc.path == c.path && rc.position == c.position && rc.body == c.body

/-- The dedup loop of `post_review`: for each existing remote comment, drop
every review comment that matches it exactly. -/
def post_review_filter (remote : List RemoteComment) (cs : List ReviewComment) :
    List ReviewComment :=
  remote.foldl (fun cs c => cs.filter (fun rc => !matchesRemote rc c)) cs

inductive PostOutcome where
  | nothingToPost
  | submit (comments : List ReviewComment)
deriving DecidableEq, Repr

/-- After dedup, `post_review` either returns without posting (everything
already posted) or submits the remaining comments. -/
def post_review_outcome (remote : List RemoteComment) (review : Review) : PostOutcome :=
  let remaining := post_review_filter remote review.comments
  if remaining = [] then PostOutcome.nothingToPost else PostOutcome.submit remaining

/-! ### Lemmas about the warning-stream state machine -/

theorem hasSubstr_of_isPrefixOf {pat l : List Char} (h : pat.isPrefixOf l = true) :
    hasSubstr pat l = true := by
  cases l with
  | nil =>
    cases pat with
    | nil => rfl
    | cons c cs => simp [List.isPrefixOf] at h
  | cons c rest => simp [hasSubstr, h]

/-- Lines without the marker are consumed without any effect. -/
theorem make_review_loop_skip_clean (root : String) (lookup : Lookup) :
    ∀ (pre tail : List String),
      (∀ l ∈ pre, hasSubstr warningMarker l.data = false) →
      make_review_loop root lookup (pre ++ tail) = make_review_loop root lookup tail := by
  intro pre
  induction pre with
  | nil => intro tail _; rfl
  | cons p pre ih =>
    intro tail hclean
    have hp := hclean p (List.mem_cons_self _ _)
    rw [List.cons_append, make_review_loop]
    simp only [hp]
    exact ih tail (fun l hl => hclean l (List.mem_cons_of_mem _ hl))

/-- C6: a diagnostic line that begins with the bare word "warning" (no
leading file path) produces no comment and does not abort processing: the
result is exactly the result of processing the remaining lines. -/
theorem make_review_skips_pathless_warning (root : String) (lookup : Lookup)
    (line : String) (rest : List String)
    (h : warningMarker.isPrefixOf line.data = true) :
    make_review (line :: rest) lookup root = make_review rest lookup root := by
  rw [make_review, make_review, make_review_loop]
  simp only [hasSubstr_of_isPrefixOf h, h, if_true]

/-- Witness for C6: a pathless warning line followed by a valid record. -/
theorem make_review_skips_pathless_warning_witness :
    make_review ["warning: something went wrong", "/a/b.cpp:1:1: warning: w"]
        [("b.cpp", [(some 1, 3)])] "/a"
      = make_review ["/a/b.cpp:1:1: warning: w"] [("b.cpp", [(some 1, 3)])] "/a" :=
  make_review_skips_pathless_warning "/a" [("b.cpp", [(some 1, 3)])]
    "warning: something went wrong" ["/a/b.cpp:1:1: warning: w"] (by decide)

/-- C7: a marker line with a leading path whose colon-split yields fewer than
the four pieces required by the tuple unpacking makes `make_review` fail with
an error for that line instead of skipping or repairing the record. -/
theorem make_review_unpack_failure (root : String) (lookup : Lookup)
    (pre : List String) (line : String) (rest : List String)
    (hpre : ∀ l ∈ pre, hasSubstr warningMarker l.data = false)
    (hwarn : hasSubstr warningMarker line.data = true)
    (hnp : warningMarker.isPrefixOf line.data = false)
    (hsplit : (splitMax ':' 3 line.data).length < 4) :
    make_review (pre ++ line :: rest) lookup root
      = Except.error (ReviewError.unpackError line) := by
  rw [make_review, make_review_loop_skip_clean root lookup pre _ hpre]
  rw [make_review_loop]
  simp only [hwarn, hnp, if_true, Bool.false_eq_true, if_false]
  rcases hs : splitMax ':' 3 line.data with _ | ⟨a, _ | ⟨b, _ | ⟨c, _ | ⟨d, tl⟩⟩⟩⟩
  · simp [Except.map]
  · simp [Except.map]
  · simp [Except.map]
  · simp [Except.map]
  · rw [hs] at hsplit
    simp at hsplit
    omega

/-- Witness for C7: a marker line with no colons at all. -/
theorem make_review_unpack_failure_witness :
    make_review ["one note line", "bad warning line without colons"] [] "/"
      = Except.error (ReviewError.unpackError "bad warning line without colons") :=
  make_review_unpack_failure "/" [] ["one note line"] "bad warning line without colons" []
    (by decide) (by decide) (by decide) (by decide)

/-! ### Deduplication lemmas -/

/-- Folding the per-remote-comment filters is one filter by "matches no
remote comment". -/
theorem post_review_filter_eq_filter :
    ∀ (remote : List RemoteComment) (cs : List ReviewComment),
      post_review_filter remote cs
        = cs.filter (fun rc => !remote.any (fun c => matchesRemote rc c)) := by
  intro remote
  induction remote with
  | nil =>
    intro cs
    simp [post_review_filter]
  | cons c remote ih =>
    intro cs
    have hstep : post_review_filter (c :: remote) cs
        = post_review_filter remote (cs.filter (fun rc => !matchesRemote rc c)) := rfl
    rw [hstep, ih, List.filter_filter]
    apply List.filter_congr
    intro rc _
    simp [Bool.not_or, Bool.and_comm]

/-- C5: deduplication removes exactly the review comments whose
(path, position, body) triple matches some already-posted remote comment,
and the surviving comments keep their relative order (the result is a
sublist of the input). -/
theorem post_review_dedup_exact (remote : List RemoteComment) (cs : List ReviewComment) :
    post_review_filter remote cs
      = cs.filter (fun rc => !remote.any (fun c => matchesRemote rc c)) ∧
    (post_review_filter remote cs).Sublist cs := by
  constructor
  · exact post_review_filter_eq_filter remote cs
  · rw [post_review_filter_eq_filter]
    exact List.filter_sublist cs

/-- C8: if every comment of the review already matches some remote comment
exactly, dedup leaves nothing and `post_review` does not submit a review. -/
theorem post_review_dedup_idempotent (remote : List RemoteComment) (review : Review)
    (h : ∀ rc ∈ review.comments, ∃ c ∈ remote, matchesRemote rc c = true) :
    post_review_filter remote review.comments = [] ∧
    post_review_outcome remote review = PostOutcome.nothingToPost := by
  have hempty : post_review_filter remote review.comments = [] := by
    rw [post_review_filter_eq_filter]
    rw [List.filter_eq_nil_iff]
    intro rc hrc
    obtain ⟨c, hc, hm⟩ := h rc hrc
    simp [List.any_eq_true]
    exact ⟨c, hc, hm⟩
  refine ⟨hempty, ?_⟩
  rw [post_review_outcome]
  simp [hempty]

/-- Witness for C8: a review whose two comments are both already posted. -/
theorem post_review_dedup_idempotent_witness :
    post_review_filter
        [RemoteComment.mk "a.cpp" 3 "m1", RemoteComment.mk "b.cpp" 7 "m2"]
        (Review.mk "clang-tidy made some suggestions" "COMMENT"
          [ReviewComment.mk "a.cpp" "m1" 3, ReviewComment.mk "b.cpp" "m2" 7]).comments = [] ∧
    post_review_outcome
        [RemoteComment.mk "a.cpp" 3 "m1", RemoteComment.mk "b.cpp" 7 "m2"]
        (Review.mk "clang-tidy made some suggestions" "COMMENT"
          [ReviewComment.mk "a.cpp" "m1" 3, ReviewComment.mk "b.cpp" "m2" 7])
      = PostOutcome.nothingToPost :=
  post_review_dedup_idempotent _ _ (by decide)

/-! ### Concrete warning-parsing boundary (C3) -/

/-- A single-quote character, written by code point. -/
def squoteStr : String :=
  String.mk [Char.ofNat 39]

/-- The diagnostic header line of the boundary example:
`/abs/path/foo.cpp:42:7: warning: unused variable 'x'`. -/
def c3HeaderLine : String :=
  "/abs/path/foo.cpp:42:7: warning: unused variable " ++ squoteStr ++ "x" ++ squoteStr

/-- The expected comment body of the boundary example. -/
def c3Body : String :=
  "warning: unused variable `x`\n\n```cpp\nint x = 5;\n    ^\n```\n"

/-- C3: the header record followed by two indented context lines and a new
warning record yields exactly one comment for the first record; its body
holds both context lines de-dented, trimmed and fenced, and the message
renders the quoted variable with backticks. -/
theorem make_review_parsing_boundary :
    make_review
        [c3HeaderLine, "    int x = 5;", "        ^", "warning: too many warnings emitted"]
        [("foo.cpp", [(some 42, 9)])] "/abs/path"
      = Except.ok (Review.mk "clang-tidy made some suggestions" "COMMENT"
          [ReviewComment.mk "foo.cpp" c3Body 9]) ∧
    hasSubstr "int x = 5;".data c3Body.data = true ∧
    hasSubstr "    ^".data c3Body.data = true ∧
    hasSubstr "```cpp\nint x = 5;\n    ^\n```".data c3Body.data = true ∧
    hasSubstr "`x`".data c3Body.data = true := by
  refine ⟨by rfl, by decide, by decide, by decide, by decide⟩

/-! ### No deduplication inside one review (C10) -/

/-- C10: two identical diagnostic records yield two identical comments in
the returned review — `make_review` never deduplicates within a run — and
the later remote-comment filter keeps both when neither matches a remote
comment, since it never compares review comments to each other. -/
theorem make_review_no_internal_dedup (root : String) (lookup : Lookup)
    (line : String) (fp sl col warn : List Char) (tbl : List (Option Int × Int)) (n pos : Int)
    (hwarn : hasSubstr warningMarker line.data = true)
    (hnp : warningMarker.isPrefixOf line.data = false)
    (hsplit : splitMax ':' 3 line.data = [fp, sl, col, warn])
    (hlk : alookup lookup (pyRelpath (String.mk fp) root) = some tbl)
    (hint : pyInt sl = some n)
    (hpos : alookup tbl (some n) = some pos) :
    ∃ c : ReviewComment,
      make_review [line, line] lookup root
        = Except.ok (Review.mk "clang-tidy made some suggestions" "COMMENT" [c, c]) ∧
      ∀ remote : List RemoteComment,
        (∀ rc ∈ remote, matchesRemote c rc = false) →
        post_review_filter remote [c, c] = [c, c] := by
  refine ⟨ReviewComment.mk (pyRelpath (String.mk fp) root)
      (commentBody warn (bodyText (String.mk fp) (pyRelpath (String.mk fp) root) [])) pos,
    ?_, ?_⟩
  · have hbody : bodyText (String.mk fp) (pyRelpath (String.mk fp) root) [line]
        = bodyText (String.mk fp) (pyRelpath (String.mk fp) root) [] := by
      simp [bodyText, List.takeWhile, hwarn]
    rw [make_review, make_review_loop]
    simp only [hwarn, hnp, if_true, Bool.false_eq_true, if_false, hsplit]
    rw [make_review_loop]
    simp only [hwarn, hnp, if_true, Bool.false_eq_true, if_false, hsplit]
    rw [make_review_loop]
    simp only [hlk, hint, hpos, hbody, Except.map]
  · intro remote hno
    rw [post_review_filter_eq_filter]
    have hany : (remote.any (fun rc =>
        matchesRemote (ReviewComment.mk (pyRelpath (String.mk fp) root)
          (commentBody warn (bodyText (String.mk fp) (pyRelpath (String.mk fp) root) [])) pos) rc))
        = false := by
      rw [List.any_eq_false]
      intro rc hrc
      simp [hno rc hrc]
    simp [List.filter, hany]

/-- Witness for C10: the same record twice, with its line present in the
lookup table. -/
theorem make_review_no_internal_dedup_witness :
    ∃ c : ReviewComment,
      make_review ["/a/b.cpp:1:1: warning: w", "/a/b.cpp:1:1: warning: w"]
          [("b.cpp", [(some 1, 3)])] "/a"
        = Except.ok (Review.mk "clang-tidy made some suggestions" "COMMENT" [c, c]) ∧
      ∀ remote : List RemoteComment,
        (∀ rc ∈ remote, matchesRemote c rc = false) →
        post_review_filter remote [c, c] = [c, c] :=
  make_review_no_internal_dedup "/a" [("b.cpp", [(some 1, 3)])]
    "/a/b.cpp:1:1: warning: w" "/a/b.cpp".data "1".data "1".data " warning: w".data
    [(some 1, 3)] 1 3
    (by decide) (by decide) (by decide) (by decide) (by decide) (by decide)

/-! ### Lookup failures in `make_review` (C4) -/

/-- Every comment of a successful run carries a position that was resolved
through the lookup table. -/
theorem make_review_loop_ok_resolvable (root : String) (lookup : Lookup) :
    ∀ (contents : List String) (cs : List ReviewComment),
      make_review_loop root lookup contents = Except.ok cs →
      ∀ c ∈ cs, ∃ tbl n, alookup lookup c.path = some tbl ∧
        alookup tbl (some n) = some c.position := by
  intro contents
  induction contents with
  | nil =>
    intro cs h c hc
    rw [make_review_loop] at h
    injection h with h
    subst h
    cases hc
  | cons line rest ih =>
    intro cs h c hc
    rw [make_review_loop] at h
    by_cases hw : hasSubstr warningMarker line.data = true
    · simp only [hw, if_true] at h
      by_cases hp : warningMarker.isPrefixOf line.data = true
      · simp only [hp, if_true] at h
        exact ih cs h c hc
      · have hp' : warningMarker.isPrefixOf line.data = false := by
          simp only [Bool.not_eq_true] at hp
          exact hp
        simp only [hp', Bool.false_eq_true, if_false] at h
        rcases hs : splitMax ':' 3 line.data with _ | ⟨fp, _ | ⟨sl, _ | ⟨col, _ | ⟨warn, _ | ⟨e5, tl⟩⟩⟩⟩⟩ <;>
          simp only [hs] at h
        · cases h
        · cases h
        · cases h
        · cases h
        · rcases hlk : alookup lookup (pyRelpath (String.mk fp) root) with _ | tbl <;>
            simp only [hlk] at h
          · cases h
          · rcases hint : pyInt sl with _ | n <;> simp only [hint] at h
            · cases h
            · rcases hpos : alookup tbl (some n) with _ | pos <;> simp only [hpos] at h
              · cases h
              · rcases hrec : make_review_loop root lookup rest with e | cs' <;>
                  simp only [hrec] at h
                · cases h
                · injection h with h
                  subst h
                  rcases List.mem_cons.mp hc with hceq | hcm
                  · subst hceq
                    exact ⟨tbl, n, hlk, hpos⟩
                  · exact ih cs' hrec c hcm
        · cases h
    · have hw' : hasSubstr warningMarker line.data = false := by
        simp only [Bool.not_eq_true] at hw
        exact hw
      simp only [hw', Bool.false_eq_true, if_false] at h
      exact ih cs h c hc

/-- C4: a record whose (path, line) pair cannot be resolved never becomes a
comment.  Every comment of a successful run is resolvable through the
lookup, and a run whose first record has an unresolvable key stops with a
distinguishable error naming the file (and line), rather than skipping the
record or continuing. -/
theorem make_review_missing_key_fatal :
    (∀ (contents : List String) (lookup : Lookup) (root : String) (rev : Review),
      make_review contents lookup root = Except.ok rev →
      ∀ c ∈ rev.comments, ∃ tbl n, alookup lookup c.path = some tbl ∧
        alookup tbl (some n) = some c.position) ∧
    (∀ (pre : List String) (line : String) (rest : List String)
        (lookup : Lookup) (root : String) (fp sl col warn : List Char) (n : Int),
      (∀ l ∈ pre, hasSubstr warningMarker l.data = false) →
      hasSubstr warningMarker line.data = true →
      warningMarker.isPrefixOf line.data = false →
      splitMax ':' 3 line.data = [fp, sl, col, warn] →
      pyInt sl = some n →
      lookup2 lookup (pyRelpath (String.mk fp) root) (some n) = none →
      ∃ e, make_review (pre ++ line :: rest) lookup root = Except.error e ∧
        (e = ReviewError.missingFile (pyRelpath (String.mk fp) root) ∨
         e = ReviewError.missingLine (pyRelpath (String.mk fp) root) n)) := by
  constructor
  · intro contents lookup root rev h c hc
    rw [make_review] at h
    rcases hloop : make_review_loop root lookup contents with e | cs <;>
      simp only [hloop, Except.map] at h
    · cases h
    · injection h with h
      subst h
      exact make_review_loop_ok_resolvable root lookup contents cs hloop c hc
  · intro pre line rest lookup root fp sl col warn n hpre hwarn hnp hsplit hint hnone
    rw [make_review, make_review_loop_skip_clean root lookup pre _ hpre, make_review_loop]
    simp only [hwarn, hnp, if_true, Bool.false_eq_true, if_false, hsplit]
    rcases hlk : alookup lookup (pyRelpath (String.mk fp) root) with _ | tbl
    · refine ⟨ReviewError.missingFile (pyRelpath (String.mk fp) root), ?_, Or.inl rfl⟩
      simp only [hlk, Except.map]
    · rw [lookup2, hlk, Option.some_bind] at hnone
      refine ⟨ReviewError.missingLine (pyRelpath (String.mk fp) root) n, ?_, Or.inr rfl⟩
      simp only [hlk, hint, hnone, Except.map]

/-- Witness for C4: a successful run on one record, and a run whose record
names a line absent from the lookup. -/
theorem make_review_missing_key_fatal_witness :
    (∀ c ∈ (Review.mk "clang-tidy made some suggestions" "COMMENT"
        [ReviewComment.mk "b.cpp"
          ("warning: w\n\n```cpp\n\n```\n") 3]).comments,
      ∃ tbl n, alookup ([("b.cpp", [(some 1, 3)])] : Lookup) c.path = some tbl ∧
        alookup tbl (some n) = some c.position) ∧
    (∃ e, make_review ["note", "/a/b.cpp:9:1: warning: w"] [("b.cpp", [(some 1, 3)])] "/a"
        = Except.error e ∧
      (e = ReviewError.missingFile (pyRelpath (String.mk "/a/b.cpp".data) "/a") ∨
       e = ReviewError.missingLine (pyRelpath (String.mk "/a/b.cpp".data) "/a") 9)) := by
  constructor
  · exact make_review_missing_key_fatal.1
      ["/a/b.cpp:1:1: warning: w"] [("b.cpp", [(some 1, 3)])] "/a"
      (Review.mk "clang-tidy made some suggestions" "COMMENT"
        [ReviewComment.mk "b.cpp" ("warning: w\n\n```cpp\n\n```\n") 3])
      (by rfl)
  · exact make_review_missing_key_fatal.2
      ["note"] "/a/b.cpp:9:1: warning: w" [] [("b.cpp", [(some 1, 3)])] "/a"
      "/a/b.cpp".data "9".data "1".data " warning: w".data 9
      (by decide) (by decide) (by decide) (by decide) (by decide) (by decide)

/-! ### Determinism and the working-directory dependence (C9)

`make_file_line_lookup` and `get_line_ranges` are pure functions of the
parsed diff.  `make_review`, however, reads the process working directory
(`root = os.getcwd()`, review.py line 44) to compute root-relative paths, so
its output is a function of its arguments *and* the working directory: the
same `(contents, lookup)` can give different reviews under different working
directories. -/

/-- Counterexample for C9 as stated: with identical `contents` and `lookup`
arguments, `make_review` changes its output when the ambient working
directory changes from `/a` to `/`, both the comment path and the position
resolved through the lookup. -/
instance {e a : Type} [DecidableEq e] [DecidableEq a] : DecidableEq (Except e a) := fun x y =>
  match x, y with
  | Except.error v, Except.error v' =>
    if h : v = v' then Decidable.isTrue (by rw [h])
    else Decidable.isFalse (fun hh => h (by injection hh))
  | Except.ok v, Except.ok v' =>
    if h : v = v' then Decidable.isTrue (by rw [h])
    else Decidable.isFalse (fun hh => h (by injection hh))
  | Except.error _, Except.ok _ => Decidable.isFalse (fun hh => Except.noConfusion hh)
  | Except.ok _, Except.error _ => Decidable.isFalse (fun hh => Except.noConfusion hh)

theorem make_review_cwd_dependence_counterexample :
    make_review ["/a/b.cpp:1:1: warning: w"]
        [("b.cpp", [(some 1, 3)]), ("a/b.cpp", [(some 1, 4)])] "/a"
      ≠ make_review ["/a/b.cpp:1:1: warning: w"]
        [("b.cpp", [(some 1, 3)]), ("a/b.cpp", [(some 1, 4)])] "/" := by
  decide

/-- C9 (amended): the three components are deterministic functions of their
explicit inputs, with the working directory counted as an explicit input of
`make_review` — which genuinely depends on it, per the counterexample. -/
theorem core_components_deterministic :
    (∀ d₁ d₂ : List PatchedFile, d₁ = d₂ →
      make_file_line_lookup d₁ = make_file_line_lookup d₂) ∧
    (∀ d₁ d₂ : List PatchedFile, d₁ = d₂ →
      get_line_ranges d₁ = get_line_ranges d₂) ∧
    (∀ (c₁ c₂ : List String) (l₁ l₂ : Lookup) (r₁ r₂ : String),
      c₁ = c₂ → l₁ = l₂ → r₁ = r₂ →
      make_review c₁ l₁ r₁ = make_review c₂ l₂ r₂) := by
  refine ⟨?_, ?_, ?_⟩
  · intro d₁ d₂ h
    rw [h]
  · intro d₁ d₂ h
    rw [h]
  · intro c₁ c₂ l₁ l₂ r₁ r₂ hc hl hr
    rw [hc, hl, hr]

/-- Witness for the amended C9 at a concrete diff and diagnostic run. -/
theorem core_components_deterministic_witness :
    make_file_line_lookup [rangesDiffA] = make_file_line_lookup [rangesDiffA] ∧
    get_line_ranges [rangesDiffA] = get_line_ranges [rangesDiffA] ∧
    make_review ["/a/b.cpp:1:1: warning: w"] [("b.cpp", [(some 1, 3)])] "/a"
      = make_review ["/a/b.cpp:1:1: warning: w"] [("b.cpp", [(some 1, 3)])] "/a" :=
  ⟨core_components_deterministic.1 [rangesDiffA] [rangesDiffA] rfl,
   core_components_deterministic.2.1 [rangesDiffA] [rangesDiffA] rfl,
   core_components_deterministic.2.2 _ _ _ _ _ _ rfl rfl rfl⟩
